import Mathlib

/-!
Verification of the `tini` INI-file library core: the order-preserving
associative store (`ordered_hashmap.rs`), the line parser (`parser.rs`),
the escaping tokenizer (`tokenizer.rs`) and the document assembly /
typed-access layer (`lib.rs`), shallowly embedded over `List Char`.
-/

set_option autoImplicit false

namespace Tini

/-- Strings are modelled as lists of characters. -/
abbrev Str := List Char

/-- Rust `str::trim` (whitespace stripped from both ends). -/
def trimStr (s : Str) : Str :=
  ((s.dropWhile Char.isWhitespace).reverse.dropWhile Char.isWhitespace).reverse

/-- Split a character list at every occurrence of `c`
(the model of Rust `str::split(char)`): `n` separators yield `n + 1` segments. -/
def splitChar (c : Char) : Str → List Str
  | [] => [[]]
  | a :: rest =>
    if a = c then [] :: splitChar c rest
    else
      match splitChar c rest with
      | [] => [[a]]
      | t :: ts => (a :: t) :: ts

/-- Rust `str::lines`: split at `'\n'`, strip a `'\r'` at the end of every
segment that was followed by a `'\n'`, and drop the final segment when it is
empty (a trailing newline produces no extra empty line). -/
def rustLines (s : Str) : List Str :=
  let parts := splitChar '\n' s
  let stripCR : Str → Str := fun l =>
    if l.getLast? = some '\r' then l.dropLast else l
  let body := parts.dropLast.map stripCR
  match parts.getLast? with
  | none => body
  | some [] => body
  | some l => body ++ [l]

/-! ## The ordered associative store (`src/ordered_hashmap.rs`)

The Rust `HashMap` base is modelled as an association list without duplicate
keys; `order` is the auxiliary insertion-order vector. -/

/-- `HashMap::get`: value of the first (unique) entry with the given key. -/
def assocGet {K V : Type} [DecidableEq K] (l : List (K × V)) (k : K) : Option V :=
  match l with
  | [] => none
  | (a, b) :: rest => if a = k then some b else assocGet rest k

/-- `HashMap::get_key_value`: stored key together with the value. -/
def assocGetKV {K V : Type} [DecidableEq K] (l : List (K × V)) (k : K) :
    Option (K × V) :=
  match l with
  | [] => none
  | (a, b) :: rest => if a = k then some (a, b) else assocGetKV rest k

/-- `HashMap::insert` base update: replace the value in place if the key is
present, append otherwise. -/
def assocInsert {K V : Type} [DecidableEq K] (l : List (K × V)) (k : K) (v : V) :
    List (K × V) :=
  match l with
  | [] => [(k, v)]
  | (a, b) :: rest => if a = k then (a, v) :: rest else (a, b) :: assocInsert rest k v

/-- Apply `f` to the value stored under `k` (used for mutation through an
occupied entry / `&mut` access). -/
def assocModify {K V : Type} [DecidableEq K] (l : List (K × V)) (k : K) (f : V → V) :
    List (K × V) :=
  match l with
  | [] => []
  | (a, b) :: rest => if a = k then (a, f b) :: rest else (a, b) :: assocModify rest k f

/-- `OrderedHashMap` from `src/ordered_hashmap.rs`: a hashed base mapping plus
a separate `order` vector of keys. -/
structure OrderedHashMap (K V : Type) where
  base : List (K × V)
  order : List K
deriving DecidableEq

namespace OrderedHashMap

variable {K V : Type} [DecidableEq K]

/-- `OrderedHashMap::new`. -/
def new : OrderedHashMap K V := ⟨[], []⟩

/-- `OrderedHashMap::get`: hashed lookup, order untouched. -/
def get (m : OrderedHashMap K V) (k : K) : Option V :=
  assocGet m.base k

/-- `OrderedHashMap::insert`: `self.order.push(k.clone()); self.base.insert(k, v)`.
The push is unconditional; the returned value is the previous one, if any. -/
def insert (m : OrderedHashMap K V) (k : K) (v : V) :
    Option V × OrderedHashMap K V :=
  (assocGet m.base k, ⟨assocInsert m.base k v, m.order ++ [k]⟩)

/-- `OrderedHashMap::entry`: `self.order.push(key.clone()); self.base.entry(key)`.
The push happens before the base `Entry` is even inspected. -/
def entry (m : OrderedHashMap K V) (k : K) : OrderedHashMap K V :=
  { m with order := m.order ++ [k] }

/-- `Entry::or_insert_with` on the base `HashMap`: create the slot with the
lazily-produced default only when the key is absent. -/
def orInsertWith (m : OrderedHashMap K V) (k : K) (f : Unit → V) :
    OrderedHashMap K V :=
  if (assocGet m.base k).isSome then m else { m with base := m.base ++ [(k, f ())] }

/-- Mutation of the value behind the reference returned by `or_insert_with`. -/
def modifyAt (m : OrderedHashMap K V) (k : K) (f : V → V) : OrderedHashMap K V :=
  { m with base := assocModify m.base k f }

/-- The `Iter` iterator: walk `order`, resolve each key through
`base.get_key_value`; a key missing from the base ends the whole traversal. -/
def iterAux (base : List (K × V)) : List K → List (K × V)
  | [] => []
  | k :: rest =>
    match assocGetKV base k with
    | some kv => kv :: iterAux base rest
    | none => []

/-- `OrderedHashMap::iter` collected to a list of pairs. -/
def iter (m : OrderedHashMap K V) : List (K × V) :=
  iterAux m.base m.order

end OrderedHashMap

/-! ## The line parser (`src/parser.rs`) -/

/-- The `Parsed` classification of one input line. -/
inductive Parsed where
  | Error (msg : Str)
  | Empty
  | Section (name : Str)
  | Value (key value : Str)
deriving DecidableEq

/-- `trim_matches(|c| c == '[' || c == ']')`: strip those characters from both
ends. -/
def trimBrackets (s : Str) : Str :=
  let isBr : Char → Bool := fun c => c = '[' || c = ']'
  ((s.dropWhile isBr).reverse.dropWhile isBr).reverse

/-- `parse_line` from `src/parser.rs`. -/
def parse_line (line : Str) : Parsed :=
  -- line.split(';').next() = the text before the first ';' (whole line if none)
  let content := trimStr (line.takeWhile (· ≠ ';'))
  if content = [] then .Empty
  else if content.headI = '[' then
    if content.getLast? = some ']' then .Section (trimBrackets content)
    else .Error "incorrect section syntax".data
  else if content.contains '=' then
    -- splitn(2, '=').map(|s| s.trim())
    let key := trimStr (content.takeWhile (· ≠ '='))
    let value := trimStr ((content.dropWhile (· ≠ '=')).drop 1)
    if key = [] then .Error "empty key".data
    else .Value key value
  else .Error "incorrect syntax".data

/-! ## The document structure and assembler (`src/lib.rs`) -/

/-- `type Section = OrderedHashMap<String, String>`. -/
abbrev IniSection := OrderedHashMap Str Str

/-- `type IniParsed = OrderedHashMap<String, Section>`. -/
abbrev IniParsed := OrderedHashMap Str IniSection

/-- The `Ini` structure: the parsed data plus the current-section cursor. -/
structure Ini where
  data : IniParsed
  last_section_name : Str
deriving DecidableEq

namespace Ini

/-- `Ini::new`. -/
def new : Ini := ⟨OrderedHashMap.new, []⟩

/-- `Ini::section`: set the cursor only; the data is not touched. -/
def section' (ini : Ini) (name : Str) : Ini :=
  { ini with last_section_name := name }

/-- `Ini::item`:
`self.data.entry(self.last_section_name.clone()).or_insert_with(Section::new).insert(name, value)`. -/
def item (ini : Ini) (name value : Str) : Ini :=
  let key := ini.last_section_name
  let data := ((ini.data.entry key).orInsertWith key (fun _ => OrderedHashMap.new)).modifyAt
    key (fun sec => (sec.insert name value).2)
  { ini with data := data }

/-- One step of `Ini::from_string`'s loop body (errors are printed, not stored). -/
def processLine (ini : Ini) (line : Str) : Ini :=
  match parse_line line with
  | .Section name => ini.section' name
  | .Value k v => ini.item k v
  | _ => ini

/-- The fold of `Ini::from_string` over the lines. -/
def processLines (ini : Ini) (lines : List Str) : Ini :=
  lines.foldl processLine ini

/-- `Ini::from_string`. -/
def from_string (s : Str) : Ini :=
  processLines new (rustLines s)

/-- `Ini::get_raw`: `self.data.get(section).and_then(|x| x.get(key))`. -/
def get_raw (ini : Ini) (sec key : Str) : Option Str :=
  (ini.data.get sec).bind (fun x => x.get key)

/-- `Ini::get`, parametrised by the target type's `FromStr` parse function. -/
def get {α : Type} (parse : Str → Option α) (ini : Ini) (sec key : Str) :
    Option α :=
  (ini.get_raw sec key).bind parse

end Ini

/-! ## Plain substring splitting (`str::split` with a `&str` pattern),
used by `Ini::get_vec_with_sep` -/

/-- Does `p` occur at the start of `s`? -/
def leadsWith : Str → Str → Bool
  | [], _ => true
  | _ :: _, [] => false
  | a :: p, b :: s => a = b && leadsWith p s

/-- Fuelled worker for `splitOnStr` (each step consumes at least one character,
so `s.length + 1` fuel always suffices). -/
def splitOnAux (sep : Str) : Nat → Str → Str → List Str
  | 0, s, acc => [acc.reverse ++ s]
  | fuel + 1, s, acc =>
    if leadsWith sep s then
      acc.reverse :: splitOnAux sep fuel (s.drop sep.length) []
    else
      match s with
      | [] => [acc.reverse]
      | c :: rest => splitOnAux sep fuel rest (c :: acc)

/-- Rust `str::split(sep)` for a string pattern: with a nonempty needle, split
at every occurrence; the empty needle matches around every character. -/
def splitOnStr (s sep : Str) : List Str :=
  if sep = [] then [] :: s.map (fun c => [c]) ++ [[]]
  else splitOnAux sep (s.length + 1) s []

/-- `Iterator::collect::<Result<Vec<_>, _>>().ok()`: all-or-nothing collection,
short-circuiting at the first failure. -/
def collectOpts {α : Type} : List (Option α) → Option (List α)
  | [] => some []
  | none :: _ => none
  | some a :: rest => (collectOpts rest).map (a :: ·)

namespace Ini

/-- `Ini::get_vec_with_sep`:
`self.get_raw(..).and_then(|x| x.split(sep).map(|s| s.trim().parse()).collect::<Result<Vec<T>, _>>().ok())`. -/
def get_vec_with_sep {α : Type} (parse : Str → Option α) (ini : Ini)
    (sec key sep : Str) : Option (List α) :=
  (ini.get_raw sec key).bind fun raw =>
    collectOpts ((splitOnStr raw sep).map (fun t => parse (trimStr t)))

/-- `Ini::get_vec`: `get_vec_with_sep` with separator `","`. -/
def get_vec {α : Type} (parse : Str → Option α) (ini : Ini) (sec key : Str) :
    Option (List α) :=
  get_vec_with_sep parse ini sec key ",".data

/-- The `fmt::Display` implementation collected into a character buffer
(`to_buffer`): `[name]\n`, the `key = value\n` lines, a blank line after each
section, then two final `pop`s. -/
def to_buffer (ini : Ini) : Str :=
  let buffer := ini.data.iter.foldl
    (fun buf sec =>
      let head := buf ++ ('[' :: sec.1 ++ "]\n".data)
      let body := sec.2.iter.foldl
        (fun b kv => b ++ kv.1 ++ " = ".data ++ kv.2 ++ "\n".data) head
      body ++ "\n".data)
    []
  buffer.dropLast.dropLast

end Ini

/-! ## The escaping tokenizer (`src/tokenizer.rs`)

The Rust iterator keeps `index: usize` intended as a byte index into the
backing `&str`, but advances it once per *character* while scanning
(`self.string.chars().skip(self.index)` likewise skips characters).  Byte
slicing `self.string[a..b]` panics when `a` or `b` is not a character
boundary; a panic is modelled as `none`. -/

/-- Total UTF-8 byte length of a character list (Rust `str::len`). -/
def utf8Len (s : Str) : Nat :=
  (s.map Char.utf8Size).sum

/-- Take the characters occupying the first `n` bytes; `none` when `n` is out
of range or not a character boundary. -/
def takeBytes : Str → Nat → Option Str
  | _, 0 => some []
  | [], _ + 1 => none
  | c :: rest, n + 1 =>
    if c.utf8Size ≤ n + 1 then (takeBytes rest (n + 1 - c.utf8Size)).map (c :: ·)
    else none

/-- Drop the characters occupying the first `n` bytes; `none` when `n` is out
of range or not a character boundary. -/
def dropBytes : Str → Nat → Option Str
  | s, 0 => some s
  | [], _ + 1 => none
  | c :: rest, n + 1 =>
    if c.utf8Size ≤ n + 1 then dropBytes rest (n + 1 - c.utf8Size)
    else none

/-- Rust byte slicing `s[a..b]` (`none` = panic). -/
def sliceBytes (s : Str) (a b : Nat) : Option Str :=
  if a ≤ b then (dropBytes s a).bind (fun t => takeBytes t (b - a)) else none

/-- Outcome of the scanning `while` loop in `Tokenizer::next`. -/
inductive ScanRes where
  | sep (endIdx : Nat)
  | eof
deriving DecidableEq

/-- The `while let Some(curr) = iterator.next()` loop: stop at an unescaped
`','` reporting the current `index`, skip the character after a `'\'`
(advancing `index` twice), otherwise advance `index` once. -/
def scanLoop : Str → Nat → ScanRes
  | [], _ => .eof
  | c :: rest, idx =>
    if c = ',' then .sep idx
    else if c = '\\' then
      match rest with
      | [] => scanLoop [] (idx + 1)
      | _ :: rest2 => scanLoop rest2 (idx + 2)
    else scanLoop rest (idx + 1)

/-- The `Tokenizer` state: the backing string and `index`. -/
structure Tokenizer where
  string : Str
  index : Nat
deriving DecidableEq

/-- `Tokenizer::next` (`none` = panic): scan from `chars().skip(index)`; on a
separator, slice `string[index..end]`, trim it and move past the separator;
at end of input, emit the trimmed remainder `string[index..]` when `index`
has not reached the byte length. -/
def Tokenizer.next (t : Tokenizer) : Option (Option Str × Tokenizer) :=
  match scanLoop (t.string.drop t.index) t.index with
  | .sep e =>
    (sliceBytes t.string t.index e).map
      (fun tok => (some (trimStr tok), { t with index := e + 1 }))
  | .eof =>
    if t.index < utf8Len t.string then
      (sliceBytes t.string t.index (utf8Len t.string)).map
        (fun tok => (some (trimStr tok), { t with index := utf8Len t.string }))
    else some (none, t)

/-- Fuelled driver collecting the tokens of an iterator (`none` = panic). -/
def tokenizeFuel : Nat → Tokenizer → Option (List Str)
  | 0, _ => none
  | fuel + 1, t =>
    match t.next with
    | none => none
    | some (none, _) => some []
    | some (some tok, t') => (tokenizeFuel fuel t').map (tok :: ·)

/-- `Tokenizer::new(s).collect::<Vec<_>>()` (`none` = panic).  Every emitted
token strictly advances `index`, and the iterator ends once `index` reaches
the byte length, so `utf8Len s + 2` fuel always suffices. -/
def tokenize (s : Str) : Option (List Str) :=
  tokenizeFuel (utf8Len s + 2) ⟨s, 0⟩

/-! ## Character-level companions used in the proofs -/

/-- Number of characters the scanning loop consumes before the first
unescaped separator (`none` when the loop reaches the end of input).  An
escape consumes two characters, matching the double `index` increment. -/
def charScanPos : Str → Option Nat
  | [] => none
  | c :: rest =>
    if c = ',' then some 0
    else if c = '\\' then
      match rest with
      | [] => none
      | _ :: rest2 => (charScanPos rest2).map (· + 2)
    else (charScanPos rest).map (· + 1)

/-- Character-level reference scanner: accumulate the current token (reversed)
and emit it at each unescaped separator; at end of input emit the remainder
only when it is nonempty before trimming. -/
def scanTok : Str → Str → List Str
  | [], acc => if acc = [] then [] else [trimStr acc.reverse]
  | c :: rest, acc =>
    if c = ',' then trimStr acc.reverse :: scanTok rest []
    else if c = '\\' then
      match rest with
      | [] => scanTok [] ('\\' :: acc)
      | d :: rest2 => scanTok rest2 (d :: '\\' :: acc)
    else scanTok rest (c :: acc)

/-- The token sequence of a string at the character level. -/
def splitTokens (s : Str) : List Str :=
  scanTok s []

/-- A segment containing no unescaped separator and no escape that would
swallow a character appended after it. -/
def cleanSeg : Str → Bool
  | [] => true
  | c :: rest =>
    if c = ',' then false
    else if c = '\\' then
      match rest with
      | [] => false
      | _ :: rest2 => cleanSeg rest2
    else cleanSeg rest

/-- Every character is a single UTF-8 byte. -/
def allAscii (s : Str) : Bool :=
  s.all (fun c => c.utf8Size == 1)

/-- Extract the `(key, value)` pairs of a list of lines, requiring every line
to parse as an entry. -/
def extractEntries : List Str → Option (List (Str × Str))
  | [] => some []
  | l :: rest =>
    match parse_line l with
    | .Value k v => (extractEntries rest).map ((k, v) :: ·)
    | _ => none

/-- The value attached to the LAST pair with the given key, if any. -/
def lastAssoc : List (Str × Str) → Str → Option Str
  | [], _ => none
  | (a, b) :: rest, k =>
    match lastAssoc rest k with
    | some v => some v
    | none => if a = k then some b else none

/-- Does the line classify as a key-value entry? -/
def isEntryLine (l : Str) : Bool :=
  match parse_line l with
  | .Value _ _ => true
  | _ => false

/-- Does the line classify as a section header with an empty name? -/
def isEmptyHeaderLine (l : Str) : Bool :=
  match parse_line l with
  | .Section [] => true
  | _ => false

/-- A two-key document built through the builder API:
`Ini::new().section("s").item("a", "1").item("b", "2")`. -/
def exDoc : Ini :=
  ((Ini.new.section' ("s".data)).item "a".data "1".data).item "b".data "2".data

/-- A document storing the value `1\,2` under `[s] k`. -/
def exDocEsc : Ini :=
  (Ini.new.section' ("s".data)).item "k".data "1\\,2".data

/-- A document storing the value `1, 2, --, 4` under `[s] k`. -/
def exDocVec : Ini :=
  (Ini.new.section' ("s".data)).item "k".data "1, 2, --, 4".data

/-- A simple decimal natural-number parser standing in for `u8::from_str`
(used to instantiate the typed accessors at a concrete type). -/
def parseNatStr (s : Str) : Option Nat :=
  if s ≠ [] ∧ s.all Char.isDigit then
    some (s.foldl (fun n c => n * 10 + (c.toNat - 48)) 0)
  else none

/-! # Theorems -/

/-! ## Association-list lemmas -/

section AssocLemmas

variable {K V : Type} [DecidableEq K]

theorem assocGet_insert_self (l : List (K × V)) (k : K) (v : V) :
    assocGet (assocInsert l k v) k = some v := by
  induction l with
  | nil => simp [assocInsert, assocGet]
  | cons p rest ih =>
    obtain ⟨a, b⟩ := p
    by_cases h : a = k <;> simp [assocInsert, assocGet, h, ih]

theorem assocGet_insert_other (l : List (K × V)) (k k' : K) (v : V)
    (h : k' ≠ k) : assocGet (assocInsert l k v) k' = assocGet l k' := by
  induction l with
  | nil => simp [assocInsert, assocGet, Ne.symm h]
  | cons p rest ih =>
    obtain ⟨a, b⟩ := p
    by_cases ha : a = k
    · subst ha
      simp [assocInsert, assocGet, Ne.symm h]
    · simp [assocInsert, assocGet, ha, ih]

theorem assocGet_modify_self (l : List (K × V)) (k : K) (f : V → V) :
    assocGet (assocModify l k f) k = (assocGet l k).map f := by
  induction l with
  | nil => simp [assocModify, assocGet]
  | cons p rest ih =>
    obtain ⟨a, b⟩ := p
    by_cases h : a = k <;> simp [assocModify, assocGet, h, ih]

theorem assocGet_modify_other (l : List (K × V)) (k k' : K) (f : V → V)
    (h : k' ≠ k) : assocGet (assocModify l k f) k' = assocGet l k' := by
  induction l with
  | nil => simp [assocModify, assocGet]
  | cons p rest ih =>
    obtain ⟨a, b⟩ := p
    by_cases ha : a = k
    · subst ha
      simp [assocModify, assocGet, Ne.symm h]
    · simp [assocModify, assocGet, ha, ih]

theorem assocGet_append_self (l : List (K × V)) (k : K) (v : V)
    (h : assocGet l k = none) : assocGet (l ++ [(k, v)]) k = some v := by
  induction l with
  | nil => simp [assocGet]
  | cons p rest ih =>
    obtain ⟨a, b⟩ := p
    by_cases ha : a = k
    · simp [assocGet, ha] at h
    · simp [assocGet, ha] at h ⊢
      exact ih h

theorem assocGet_append_other (l : List (K × V)) (k k' : K) (v : V)
    (h : k' ≠ k) : assocGet (l ++ [(k, v)]) k' = assocGet l k' := by
  induction l with
  | nil => simp [assocGet, Ne.symm h]
  | cons p rest ih =>
    obtain ⟨a, b⟩ := p
    by_cases ha : a = k' <;> simp [assocGet, ha, ih]

end AssocLemmas

/-! ## Lemmas about `Ini.item`, `Ini.section'` and `Ini.get_raw` -/

theorem item_last_section_name (ini : Ini) (n v : Str) :
    (ini.item n v).last_section_name = ini.last_section_name := rfl

theorem section'_data (ini : Ini) (name : Str) :
    (ini.section' name).data = ini.data := rfl

theorem get_raw_section' (ini : Ini) (name sec k : Str) :
    (ini.section' name).get_raw sec k = ini.get_raw sec k := rfl

/-- After `item(n, v)`, looking up key `k` in the current section yields `v`
for `k = n` and is otherwise unchanged. -/
theorem get_raw_item_self (ini : Ini) (n v k : Str) :
    (ini.item n v).get_raw ini.last_section_name k
      = if k = n then some v else ini.get_raw ini.last_section_name k := by
  unfold Ini.item Ini.get_raw OrderedHashMap.entry OrderedHashMap.orInsertWith
    OrderedHashMap.modifyAt OrderedHashMap.get OrderedHashMap.insert
  cases hsec : assocGet ini.data.base ini.last_section_name with
  | some sec =>
    simp [hsec, assocGet_modify_self]
    by_cases hk : k = n
    · simp [hk, assocGet_insert_self]
    · simp [hk, assocGet_insert_other _ _ _ _ hk]
  | none =>
    simp [hsec, assocGet_modify_self, assocGet_append_self _ _ _ hsec]
    by_cases hk : k = n
    · simp [hk, OrderedHashMap.new, assocInsert, assocGet]
    · simp [hk, OrderedHashMap.new, assocInsert, assocGet, Ne.symm hk]

/-- `item` touches only the current section: lookups in any other section are
unchanged. -/
theorem get_raw_item_other (ini : Ini) (n v sec k : Str)
    (h : sec ≠ ini.last_section_name) :
    (ini.item n v).get_raw sec k = ini.get_raw sec k := by
  unfold Ini.item Ini.get_raw OrderedHashMap.entry OrderedHashMap.orInsertWith
    OrderedHashMap.modifyAt OrderedHashMap.get
  cases hsec : assocGet ini.data.base ini.last_section_name with
  | some s0 =>
    simp [hsec, assocGet_modify_other _ _ _ _ h]
  | none =>
    simp [hsec, assocGet_modify_other _ _ _ _ h,
      assocGet_append_other _ _ _ _ h]

/-- C4 (amended): for every line whose content after comment-stripping does
not start with `[`, contains `=`, and has a nonempty trimmed key, `parse_line`
produces exactly the trimmed key and the trimmed text after the FIRST `=`,
and after assembling the entry into the current section the lookup yields
that value. -/
theorem wellformed_entry_line_roundtrip
    (line : Str) (ini : Ini)
    (hbr : (trimStr (line.takeWhile (· ≠ ';'))).headI ≠ '[')
    (heq : (trimStr (line.takeWhile (· ≠ ';'))).contains '=' = true)
    (hne : trimStr ((trimStr (line.takeWhile (· ≠ ';'))).takeWhile (· ≠ '='))
      ≠ []) :
    parse_line line
      = .Value (trimStr ((trimStr (line.takeWhile (· ≠ ';'))).takeWhile (· ≠ '=')))
          (trimStr (((trimStr (line.takeWhile (· ≠ ';'))).dropWhile (· ≠ '=')).drop 1)) ∧
    (ini.item
        (trimStr ((trimStr (line.takeWhile (· ≠ ';'))).takeWhile (· ≠ '=')))
        (trimStr (((trimStr (line.takeWhile (· ≠ ';'))).dropWhile (· ≠ '=')).drop 1))).get_raw
      ini.last_section_name
      (trimStr ((trimStr (line.takeWhile (· ≠ ';'))).takeWhile (· ≠ '=')))
      = some (trimStr (((trimStr (line.takeWhile (· ≠ ';'))).dropWhile (· ≠ '=')).drop 1)) := by
  have hcontent : trimStr (line.takeWhile (· ≠ ';')) ≠ [] := by
    intro h
    apply hne
    rw [h]
    rfl
  constructor
  · unfold parse_line
    simp only [if_neg hcontent, if_neg hbr, heq, if_pos, if_neg hne]
  · rw [get_raw_item_self, if_pos rfl]

/-- Witness for the amended C4 theorem at the repository's own test line
`"name1 = 100 ; comment"`. -/
theorem wellformed_entry_line_roundtrip_witness :
    parse_line "name1 = 100 ; comment".data
      = .Value "name1".data "100".data ∧
    ((Ini.new.section' ("x".data)).item "name1".data "100".data).get_raw
      "x".data "name1".data = some "100".data := by
  have h := wellformed_entry_line_roundtrip "name1 = 100 ; comment".data
    (Ini.new.section' ("x".data)) (by decide) (by decide) (by decide)
  exact ⟨h.1, h.2⟩

/-! ## Assembler lemmas -/

/-- Processing lines none of which is an entry never touches the data. -/
theorem processLines_data_of_no_entries (ls : List Str) :
    ∀ ini : Ini, (∀ l ∈ ls, isEntryLine l = false) →
      (Ini.processLines ini ls).data = ini.data := by
  induction ls with
  | nil => intro ini _; rfl
  | cons l rest ih =>
    intro ini h
    have hstep : (Ini.processLine ini l).data = ini.data := by
      unfold Ini.processLine
      cases hpl : parse_line l with
      | Value a b =>
        have := h l (List.mem_cons_self _ _)
        rw [isEntryLine, hpl] at this
        simp at this
      | Section name => rfl
      | Error msg => rfl
      | Empty => rfl
    have hcur : Ini.processLines ini (l :: rest)
        = Ini.processLines (Ini.processLine ini l) rest := rfl
    rw [hcur, ih _ (fun l' hl' => h l' (List.mem_cons_of_mem _ hl')), hstep]

/-- C7 (amended): a builder `section(name)` call, and a section-header line,
only move the cursor; an input containing no entry lines produces a document
with no sections at all. -/
theorem headers_only_create_no_sections
    (ini : Ini) (name : Str) (s : Str)
    (h : ∀ l ∈ rustLines s, isEntryLine l = false) :
    (ini.section' name).data = ini.data ∧
    (ini.section' name).last_section_name = name ∧
    (Ini.from_string s).data = OrderedHashMap.new := by
  refine ⟨rfl, rfl, ?_⟩
  unfold Ini.from_string
  rw [processLines_data_of_no_entries _ _ h]
  rfl

/-- Witness for the amended C7 theorem at the header-only input `"[empty]"`. -/
theorem headers_only_create_no_sections_witness :
    (Ini.new.section' ("empty".data)).data = Ini.new.data ∧
    (Ini.new.section' ("empty".data)).last_section_name = "empty".data ∧
    (Ini.from_string "[empty]".data).data = OrderedHashMap.new := by
  exact headers_only_create_no_sections Ini.new "empty".data "[empty]".data
    (by decide)

/-- Processing entry-only lines keeps the cursor and accumulates the entries
into the cursor's section, the last value for each key winning. -/
theorem processLines_entries (pre : List Str) :
    ∀ (kvs : List (Str × Str)) (ini : Ini), extractEntries pre = some kvs →
      (Ini.processLines ini pre).last_section_name = ini.last_section_name ∧
      ∀ k, (Ini.processLines ini pre).get_raw ini.last_section_name k
        = match lastAssoc kvs k with
          | some v => some v
          | none => ini.get_raw ini.last_section_name k := by
  induction pre with
  | nil =>
    intro kvs ini h
    simp only [extractEntries, Option.some_inj] at h
    subst h
    exact ⟨rfl, fun k => by simp [Ini.processLines, lastAssoc]⟩
  | cons l rest ih =>
    intro kvs ini h
    unfold extractEntries at h
    cases hpl : parse_line l with
    | Value a b =>
      rw [hpl] at h
      cases hrest : extractEntries rest with
      | none => rw [hrest] at h; simp at h
      | some kvs' =>
        rw [hrest] at h
        simp only [Option.map_some', Option.some_inj] at h
        subst h
        have hstep : Ini.processLine ini l = ini.item a b := by
          unfold Ini.processLine
          rw [hpl]
        have hcur :
            Ini.processLines ini (l :: rest)
              = Ini.processLines (ini.item a b) rest := by
          show Ini.processLines (Ini.processLine ini l) rest = _
          rw [hstep]
        obtain ⟨ihc, ihg⟩ := ih kvs' (ini.item a b) hrest
        refine ⟨?_, ?_⟩
        · rw [hcur, ihc, item_last_section_name]
        · intro k
          rw [hcur]
          have := ihg k
          rw [item_last_section_name] at this
          rw [this, get_raw_item_self]
          cases hla : lastAssoc kvs' k with
          | some v => simp [lastAssoc, hla]
          | none =>
            by_cases hk : a = k
            · simp [lastAssoc, hla, hk]
            · simp [lastAssoc, hla, hk, Ne.symm hk]
    | Section n => rw [hpl] at h; simp at h
    | Error m => rw [hpl] at h; simp at h
    | Empty => rw [hpl] at h; simp at h

/-- Once the cursor is a nonempty section name and every later header is
nonempty, the empty-string section is never touched again. -/
theorem processLines_preserves_empty_section (ls : List Str) :
    ∀ ini : Ini, ini.last_section_name ≠ [] →
      (∀ l ∈ ls, isEmptyHeaderLine l = false) →
      ∀ k, (Ini.processLines ini ls).get_raw [] k = ini.get_raw [] k := by
  induction ls with
  | nil => intro ini _ _ k; rfl
  | cons l rest ih =>
    intro ini hcur h k
    have hcons : Ini.processLines ini (l :: rest)
        = Ini.processLines (Ini.processLine ini l) rest := rfl
    rw [hcons]
    cases hpl : parse_line l with
    | Section n =>
      have hn : n ≠ [] := by
        intro hn0
        have := h l (List.mem_cons_self _ _)
        rw [isEmptyHeaderLine, hpl, hn0] at this
        simp at this
      have hstep : Ini.processLine ini l = ini.section' n := by
        unfold Ini.processLine; rw [hpl]
      rw [hstep]
      rw [ih _ hn (fun l' hl' => h l' (List.mem_cons_of_mem _ hl'))]
      rfl
    | Value a b =>
      have hstep : Ini.processLine ini l = ini.item a b := by
        unfold Ini.processLine; rw [hpl]
      rw [hstep]
      rw [ih _ (by rw [item_last_section_name]; exact hcur)
        (fun l' hl' => h l' (List.mem_cons_of_mem _ hl'))]
      exact get_raw_item_other ini a b [] k (fun hc => hcur hc.symm)
    | Error m =>
      have hstep : Ini.processLine ini l = ini := by
        unfold Ini.processLine; rw [hpl]
      rw [hstep, ih _ hcur (fun l' hl' => h l' (List.mem_cons_of_mem _ hl'))]
    | Empty =>
      have hstep : Ini.processLine ini l = ini := by
        unfold Ini.processLine; rw [hpl]
      rw [hstep, ih _ hcur (fun l' hl' => h l' (List.mem_cons_of_mem _ hl'))]

/-- C8: an input whose leading lines are entries (before any section header)
collects those entries under the empty-string section name: parsing succeeds
and the lookup under `""` yields the last value written for the key. -/
theorem entries_before_header_under_empty_section
    (s : Str) (pre post : List Str) (kvs : List (Str × Str)) (k v : Str)
    (hsplit : rustLines s = pre ++ post)
    (hpre : extractEntries pre = some kvs)
    (hpost : ∀ l ∈ post, isEmptyHeaderLine l = false)
    (hhead : post = [] ∨
      ∃ h rest n, post = h :: rest ∧ parse_line h = .Section n ∧ n ≠ [])
    (hlast : lastAssoc kvs k = some v) :
    (Ini.from_string s).get_raw [] k = some v := by
  unfold Ini.from_string
  rw [hsplit]
  have happ : Ini.processLines Ini.new (pre ++ post)
      = Ini.processLines (Ini.processLines Ini.new pre) post := by
    unfold Ini.processLines
    exact List.foldl_append _ _ _ _
  rw [happ]
  obtain ⟨hc1, hg1⟩ := processLines_entries pre kvs Ini.new hpre
  have hval1 : (Ini.processLines Ini.new pre).get_raw [] k = some v := by
    have := hg1 k
    rw [hlast] at this
    have hnew : Ini.new.last_section_name = [] := rfl
    rw [hnew] at this
    exact this
  rcases hhead with hnil | ⟨h0, rest, n, hpost_eq, hpl, hn⟩
  · rw [hnil]
    exact hval1
  · subst hpost_eq
    have hcons : Ini.processLines (Ini.processLines Ini.new pre) (h0 :: rest)
        = Ini.processLines
          (Ini.processLine (Ini.processLines Ini.new pre) h0) rest := rfl
    have hstep : Ini.processLine (Ini.processLines Ini.new pre) h0
        = (Ini.processLines Ini.new pre).section' n := by
      unfold Ini.processLine; rw [hpl]
    rw [hcons, hstep]
    rw [processLines_preserves_empty_section rest _ hn
      (fun l' hl' => hpost l' (List.mem_cons_of_mem _ hl'))]
    exact hval1

/-- Witness for C8 at the input `"a = 1\nb = 2\n[s]\nc = 3"`. -/
theorem entries_before_header_under_empty_section_witness :
    (Ini.from_string "a = 1\nb = 2\n[s]\nc = 3".data).get_raw [] "a".data
      = some "1".data := by
  exact entries_before_header_under_empty_section
    "a = 1\nb = 2\n[s]\nc = 3".data
    ["a = 1".data, "b = 2".data] ["[s]".data, "c = 3".data]
    [("a".data, "1".data), ("b".data, "2".data)] "a".data "1".data
    (by decide) (by decide) (by decide)
    (Or.inr ⟨"[s]".data, ["c = 3".data], "s".data, rfl, by decide, by decide⟩)
    (by decide)

/-! ## Splitting and collection lemmas -/

theorem splitChar_ne_nil (c : Char) (s : Str) : splitChar c s ≠ [] := by
  cases s with
  | nil => simp [splitChar]
  | cons a rest =>
    by_cases h : a = c
    · simp [splitChar, h]
    · simp only [splitChar, h, if_false]
      cases splitChar c rest <;> simp

theorem splitOnAux_single (c : Char) :
    ∀ (fuel : Nat) (s acc : Str), s.length < fuel →
      splitOnAux [c] fuel s acc
        = match splitChar c s with
          | [] => [acc.reverse]
          | t :: ts => (acc.reverse ++ t) :: ts := by
  intro fuel
  induction fuel with
  | zero => intro s acc h; omega
  | succ fuel ih =>
    intro s acc h
    cases s with
    | nil => simp [splitOnAux, leadsWith, splitChar]
    | cons b rest =>
      by_cases hb : b = c
      · subst hb
        have hlead : leadsWith [b] (b :: rest) = true := by
          simp [leadsWith]
        simp only [splitOnAux, hlead, if_true, List.drop_succ_cons,
          List.drop_zero, List.length_cons, List.length_nil]
        rw [ih rest [] (by simpa using Nat.lt_of_succ_lt_succ h)]
        have hne := splitChar_ne_nil b rest
        simp only [splitChar, if_pos rfl]
        cases hsp : splitChar b rest with
        | nil => exact absurd hsp hne
        | cons t ts => simp
      · have hlead : leadsWith [c] (b :: rest) = false := by
          simp [leadsWith, Ne.symm hb]
        simp only [splitOnAux, hlead, Bool.false_eq_true, if_false]
        rw [ih rest (b :: acc) (by simpa using Nat.lt_of_succ_lt_succ h)]
        have hne := splitChar_ne_nil c rest
        simp only [splitChar, hb, if_false]
        cases hsp : splitChar c rest with
        | nil => exact absurd hsp hne
        | cons t ts => simp

/-- `str::split` at a single-character pattern coincides with the
character-level splitter. -/
theorem splitOnStr_single (s : Str) (c : Char) :
    splitOnStr s [c] = splitChar c s := by
  unfold splitOnStr
  simp only [List.cons_ne_self, if_false, reduceCtorEq]
  rw [splitOnAux_single c (s.length + 1) s [] (Nat.lt_succ_self _)]
  have hne := splitChar_ne_nil c s
  cases hsp : splitChar c s with
  | nil => exact absurd hsp hne
  | cons t ts => simp

theorem splitChar_append_first (c : Char) (v1 v2 : Str) (h : ¬ c ∈ v1) :
    splitChar c (v1 ++ c :: v2) = v1 :: splitChar c v2 := by
  induction v1 with
  | nil => simp [splitChar]
  | cons a v1' ih =>
    have ha : a ≠ c := by
      intro hac
      exact h (hac ▸ List.mem_cons_self _ _)
    have hmem : ¬ c ∈ v1' := fun hm => h (List.mem_cons_of_mem _ hm)
    have hne := splitChar_ne_nil c (v1' ++ c :: v2)
    simp only [List.cons_append, splitChar, ha, if_false, List.append_eq]
    rw [ih hmem]

theorem collectOpts_map_some {α : Type} (xs : List α) :
    collectOpts (xs.map some) = some xs := by
  induction xs with
  | nil => rfl
  | cons a rest ih => simp [collectOpts, ih]

theorem collectOpts_eq_none_of_mem {α : Type} (xs : List (Option α))
    (h : none ∈ xs) : collectOpts xs = none := by
  induction xs with
  | nil => simp at h
  | cons x rest ih =>
    cases x with
    | none => rfl
    | some a =>
      have : none ∈ rest := by
        rcases List.mem_cons.mp h with h1 | h1
        · exact absurd h1.symm (by simp)
        · exact h1
      simp [collectOpts, ih this]

theorem collectOpts_forall2 {α : Type} (xs : List (Option α)) (l : List α)
    (h : collectOpts xs = some l) :
    List.Forall₂ (fun x a => x = some a) xs l := by
  induction xs generalizing l with
  | nil =>
    simp only [collectOpts, Option.some_inj] at h
    subst h
    exact List.Forall₂.nil
  | cons x rest ih =>
    cases x with
    | none => simp [collectOpts] at h
    | some a =>
      simp only [collectOpts] at h
      cases hrest : collectOpts rest with
      | none => rw [hrest] at h; simp at h
      | some l' =>
        rw [hrest] at h
        simp only [Option.map_some', Option.some_inj] at h
        subst h
        exact List.Forall₂.cons rfl (ih l' hrest)

/-- C6: `get` is absent whenever the section is missing, the key is missing,
or the stored string fails to parse; `get_vec_with_sep` is absent whenever
any single token fails to parse, and any vector it does return parses every
token — never a partial vector. -/
theorem get_and_get_vec_absent_on_failure
    {α : Type} (p : Str → Option α) (ini : Ini) (sec key sep : Str) :
    (ini.data.get sec = none → ini.get_raw sec key = none) ∧
    (∀ s0 : IniSection, ini.data.get sec = some s0 → s0.get key = none →
      ini.get_raw sec key = none) ∧
    (ini.get_raw sec key = none →
      Ini.get p ini sec key = none ∧
      Ini.get_vec_with_sep p ini sec key sep = none) ∧
    (∀ raw, ini.get_raw sec key = some raw → p raw = none →
      Ini.get p ini sec key = none) ∧
    (∀ raw t, ini.get_raw sec key = some raw → t ∈ splitOnStr raw sep →
      p (trimStr t) = none →
      Ini.get_vec_with_sep p ini sec key sep = none) ∧
    (∀ raw l, ini.get_raw sec key = some raw →
      Ini.get_vec_with_sep p ini sec key sep = some l →
      List.Forall₂ (fun t a => p (trimStr t) = some a) (splitOnStr raw sep) l) := by
  refine ⟨?_, ?_, ?_, ?_, ?_, ?_⟩
  · intro h
    show (ini.data.get sec).bind (fun x => x.get key) = none
    rw [h]
    rfl
  · intro s0 h1 h2
    show (ini.data.get sec).bind (fun x => x.get key) = none
    rw [h1]
    exact h2
  · intro h
    constructor
    · show (ini.get_raw sec key).bind p = none
      rw [h]
      rfl
    · show (ini.get_raw sec key).bind _ = none
      rw [h]
      rfl
  · intro raw h hp
    show (ini.get_raw sec key).bind p = none
    rw [h]
    exact hp
  · intro raw t h ht hp
    show (ini.get_raw sec key).bind _ = none
    rw [h]
    show collectOpts ((splitOnStr raw sep).map (fun t => p (trimStr t))) = none
    apply collectOpts_eq_none_of_mem
    rw [List.mem_map]
    exact ⟨t, ht, hp⟩
  · intro raw l h hv
    unfold Ini.get_vec_with_sep at hv
    rw [h] at hv
    have hv' : collectOpts ((splitOnStr raw sep).map (fun t => p (trimStr t)))
        = some l := hv
    have := collectOpts_forall2 _ _ hv'
    rwa [List.forall₂_map_left_iff] at this

/-- Witness for C6: on the stored value `1, 2, --, 4` the token `--` fails
the natural-number parser, so the whole vector accessor is absent. -/
theorem get_and_get_vec_absent_on_failure_witness :
    Ini.get_vec_with_sep parseNatStr exDocVec "s".data "k".data ",".data
      = none := by
  exact (get_and_get_vec_absent_on_failure parseNatStr exDocVec
      "s".data "k".data ",".data).2.2.2.2.1
    "1, 2, --, 4".data " --".data (by decide) (by decide) (by decide)

/-- C5 (amended): `get_vec` performs plain splitting, so an escaped separator
IS a token boundary: on the stored value `v1 ++ "\," ++ v2` (no separator in
`v1`) the first token handed to the scalar parser is `v1 ++ "\"`, with the
backslash retained, and the rest is split without regard to escapes. -/
theorem get_vec_plain_split_behaviour
    (v1 v2 sec key : Str) (hv : ¬ ',' ∈ v1) :
    Ini.get_vec (fun s => some s)
        ((Ini.new.section' sec).item key (v1 ++ '\\' :: ',' :: v2))
        sec key
      = some (trimStr (v1 ++ ['\\']) :: (splitChar ',' v2).map trimStr) := by
  have hraw : ((Ini.new.section' sec).item key (v1 ++ '\\' :: ',' :: v2)).get_raw
      sec key = some (v1 ++ '\\' :: ',' :: v2) := by
    have := get_raw_item_self (Ini.new.section' sec) key
      (v1 ++ '\\' :: ',' :: v2) key
    rw [if_pos rfl] at this
    exact this
  have hsep : ¬ ',' ∈ v1 ++ ['\\'] := by
    intro hm
    rcases List.mem_append.mp hm with hm | hm
    · exact hv hm
    · simp at hm
  have hsplit : splitOnStr (v1 ++ '\\' :: ',' :: v2) [',']
      = (v1 ++ ['\\']) :: splitChar ',' v2 := by
    have heq : (v1 ++ '\\' :: ',' :: v2) = (v1 ++ ['\\']) ++ ',' :: v2 := by
      simp
    rw [heq, splitOnStr_single, splitChar_append_first ',' _ _ hsep]
  unfold Ini.get_vec Ini.get_vec_with_sep
  rw [hraw]
  show collectOpts ((splitOnStr (v1 ++ '\\' :: ',' :: v2) [',']).map
      (fun t => some (trimStr t))) = _
  rw [hsplit]
  have hmapped : (((v1 ++ ['\\']) :: splitChar ',' v2).map
        (fun t => some (trimStr t)))
      = ((((v1 ++ ['\\']) :: splitChar ',' v2).map trimStr).map some) := by
    rw [List.map_map]
    rfl
  rw [hmapped, collectOpts_map_some, List.map_cons]

/-! ## Tokenizer lemmas: ASCII byte arithmetic -/

theorem allAscii_mem (s : Str) (h : allAscii s = true) {c : Char} (hc : c ∈ s) :
    c.utf8Size = 1 := by
  have := List.all_eq_true.mp h c hc
  simpa using this

theorem allAscii_sub (s t : Str) (h : allAscii s = true)
    (hsub : ∀ c ∈ t, c ∈ s) : allAscii t = true := by
  refine List.all_eq_true.mpr fun c hc => ?_
  simpa using allAscii_mem s h (hsub c hc)

theorem utf8Len_ascii (s : Str) (h : allAscii s = true) :
    utf8Len s = s.length := by
  induction s with
  | nil => rfl
  | cons c rest ih =>
    have hc : c.utf8Size = 1 := allAscii_mem _ h (List.mem_cons_self _ _)
    have hrest : allAscii rest = true :=
      allAscii_sub _ _ h (fun d hd => List.mem_cons_of_mem _ hd)
    simp [utf8Len, hc] at ih ⊢
    rw [ih hrest]
    omega

theorem dropBytes_ascii (s : Str) (h : allAscii s = true) :
    ∀ i ≤ s.length, dropBytes s i = some (s.drop i) := by
  induction s with
  | nil =>
    intro i hi
    have hi0 : i = 0 := by simpa using hi
    subst hi0
    rfl
  | cons c rest ih =>
    intro i hi
    cases i with
    | zero => rfl
    | succ j =>
      have hc : c.utf8Size = 1 := allAscii_mem _ h (List.mem_cons_self _ _)
      have hrest : allAscii rest = true :=
        allAscii_sub _ _ h (fun d hd => List.mem_cons_of_mem _ hd)
      show dropBytes (c :: rest) (j + 1) = some ((c :: rest).drop (j + 1))
      rw [dropBytes, if_pos (by omega)]
      rw [hc]
      simp only [Nat.add_sub_cancel, List.drop_succ_cons]
      exact ih hrest j (by simpa using Nat.lt_succ_iff.mp (Nat.lt_of_succ_le hi))

theorem takeBytes_ascii (s : Str) (h : allAscii s = true) :
    ∀ n ≤ s.length, takeBytes s n = some (s.take n) := by
  induction s with
  | nil =>
    intro n hn
    have hn0 : n = 0 := by simpa using hn
    subst hn0
    rfl
  | cons c rest ih =>
    intro n hn
    cases n with
    | zero => rfl
    | succ j =>
      have hc : c.utf8Size = 1 := allAscii_mem _ h (List.mem_cons_self _ _)
      have hrest : allAscii rest = true :=
        allAscii_sub _ _ h (fun d hd => List.mem_cons_of_mem _ hd)
      show takeBytes (c :: rest) (j + 1) = some ((c :: rest).take (j + 1))
      rw [takeBytes, if_pos (by omega)]
      rw [hc]
      simp only [Nat.add_sub_cancel, List.take_succ_cons]
      rw [ih hrest j (by simpa using Nat.lt_succ_iff.mp (Nat.lt_of_succ_le hn))]
      rfl

theorem sliceBytes_ascii (s : Str) (h : allAscii s = true) (a b : Nat)
    (hab : a ≤ b) (hb : b ≤ s.length) :
    sliceBytes s a b = some ((s.drop a).take (b - a)) := by
  unfold sliceBytes
  rw [if_pos hab, dropBytes_ascii s h a (le_trans hab hb)]
  show takeBytes (s.drop a) (b - a) = _
  have hdrop : allAscii (s.drop a) = true :=
    allAscii_sub _ _ h (fun d hd => List.mem_of_mem_drop hd)
  rw [takeBytes_ascii _ hdrop (b - a) (by simp [List.length_drop]; omega)]

/-! ## Tokenizer lemmas: the scanning loop at the character level -/

theorem charScanPos_lt (l : Str) (k : Nat) (h : charScanPos l = some k) :
    k < l.length := by
  induction l using charScanPos.induct generalizing k with
  | case1 => rw [charScanPos.eq_def] at h; simp at h
  | case2 rest =>
    rw [charScanPos.eq_def] at h
    simp at h
    simp only [List.length_cons]
    omega
  | case3 hc => rw [charScanPos.eq_def] at h; simp at h
  | case4 head rest hc ih =>
    rw [charScanPos.eq_def] at h
    simp only [if_neg hc, if_pos rfl] at h
    cases hk : charScanPos rest with
    | none => rw [hk] at h; simp at h
    | some k2 =>
      rw [hk] at h
      simp at h
      have := ih k2 hk
      simp only [List.length_cons]
      omega
  | case5 head rest hc he ih =>
    rw [charScanPos.eq_def] at h
    simp only [if_neg hc, if_neg he] at h
    cases hk : charScanPos rest with
    | none => rw [hk] at h; simp at h
    | some k2 =>
      rw [hk] at h
      simp at h
      have := ih k2 hk
      simp only [List.length_cons]
      omega

theorem scanLoop_eq (l : Str) : ∀ idx : Nat, scanLoop l idx
    = match charScanPos l with
      | some k => ScanRes.sep (idx + k)
      | none => ScanRes.eof := by
  induction l using charScanPos.induct with
  | case1 => intro idx; rfl
  | case2 rest =>
    intro idx
    rw [scanLoop.eq_def, charScanPos.eq_def]
    simp
  | case3 hc =>
    intro idx
    rw [scanLoop.eq_def, charScanPos.eq_def]
    simp only [if_neg hc, if_pos rfl]
    rfl
  | case4 head rest hc ih =>
    intro idx
    rw [scanLoop.eq_def, charScanPos.eq_def]
    simp only [if_neg hc, if_pos rfl]
    rw [ih (idx + 2)]
    cases hk : charScanPos rest with
    | none => rfl
    | some k2 =>
      simp only [Option.map_some']
      show ScanRes.sep (idx + 2 + k2) = ScanRes.sep (idx + (k2 + 2))
      congr 1
      omega
  | case5 head rest hc he ih =>
    intro idx
    rw [scanLoop.eq_def, charScanPos.eq_def]
    simp only [if_neg hc, if_neg he]
    rw [ih (idx + 1)]
    cases hk : charScanPos rest with
    | none => rfl
    | some k2 =>
      simp only [Option.map_some']
      show ScanRes.sep (idx + 1 + k2) = ScanRes.sep (idx + (k2 + 1))
      congr 1
      omega

/-- The reference scanner characterised through `charScanPos`: the next
unescaped separator (if any) closes the current token, and the remainder is
scanned afresh. -/
theorem scanTok_eq (l : Str) : ∀ acc : Str, scanTok l acc
    = match charScanPos l with
      | some k =>
        trimStr (acc.reverse ++ l.take k) :: scanTok (l.drop (k + 1)) []
      | none =>
        if acc.reverse ++ l = [] then [] else [trimStr (acc.reverse ++ l)] := by
  induction l using charScanPos.induct with
  | case1 =>
    intro acc
    rw [scanTok.eq_def, charScanPos.eq_def]
    by_cases hacc : acc = []
    · simp [hacc]
    · simp [hacc, List.reverse_eq_nil_iff]
  | case2 rest =>
    intro acc
    rw [scanTok.eq_def, charScanPos.eq_def]
    simp
  | case3 hc =>
    intro acc
    rw [scanTok.eq_def, charScanPos.eq_def]
    simp only [if_neg hc, if_pos rfl]
    rw [scanTok.eq_def]
    have hne : '\\' :: acc ≠ [] := by simp
    simp [hne, List.reverse_cons]
  | case4 head rest hc ih =>
    intro acc
    rw [scanTok.eq_def, charScanPos.eq_def]
    simp only [if_neg hc, if_pos rfl]
    rw [ih (head :: '\\' :: acc)]
    cases hk : charScanPos rest with
    | some k2 =>
      simp only [Option.map_some']
      show trimStr ((head :: '\\' :: acc).reverse ++ rest.take k2)
            :: scanTok (rest.drop (k2 + 1)) []
          = trimStr (acc.reverse ++ ('\\' :: head :: rest).take (k2 + 2))
            :: scanTok (('\\' :: head :: rest).drop (k2 + 2 + 1)) []
      have h1 : (head :: '\\' :: acc).reverse ++ rest.take k2
          = acc.reverse ++ ('\\' :: head :: rest).take (k2 + 2) := by
        simp [List.reverse_cons]
      have h2 : rest.drop (k2 + 1) = ('\\' :: head :: rest).drop (k2 + 2 + 1) := by
        simp [List.drop_succ_cons]
      rw [h1, h2]
    | none =>
      have hne1 : (head :: '\\' :: acc).reverse ++ rest ≠ [] := by
        simp
      have hne2 : acc.reverse ++ ('\\' :: head :: rest) ≠ [] := by
        simp
      simp only [if_neg hne1, if_neg hne2]
      show [trimStr ((head :: '\\' :: acc).reverse ++ rest)]
          = [trimStr (acc.reverse ++ ('\\' :: head :: rest))]
      have : (head :: '\\' :: acc).reverse ++ rest
          = acc.reverse ++ ('\\' :: head :: rest) := by
        simp [List.reverse_cons]
      rw [this]
  | case5 head rest hc he ih =>
    intro acc
    rw [scanTok.eq_def, charScanPos.eq_def]
    simp only [if_neg hc, if_neg he]
    rw [ih (head :: acc)]
    cases hk : charScanPos rest with
    | some k2 =>
      simp only [Option.map_some']
      show trimStr ((head :: acc).reverse ++ rest.take k2)
            :: scanTok (rest.drop (k2 + 1)) []
          = trimStr (acc.reverse ++ (head :: rest).take (k2 + 1))
            :: scanTok ((head :: rest).drop (k2 + 1 + 1)) []
      have h1 : (head :: acc).reverse ++ rest.take k2
          = acc.reverse ++ (head :: rest).take (k2 + 1) := by
        simp [List.reverse_cons]
      have h2 : rest.drop (k2 + 1) = (head :: rest).drop (k2 + 1 + 1) := by
        simp [List.drop_succ_cons]
      rw [h1, h2]
    | none =>
      have hne1 : (head :: acc).reverse ++ rest ≠ [] := by simp
      have hne2 : acc.reverse ++ (head :: rest) ≠ [] := by simp
      simp only [if_neg hne1, if_neg hne2]
      show [trimStr ((head :: acc).reverse ++ rest)]
          = [trimStr (acc.reverse ++ (head :: rest))]
      have : (head :: acc).reverse ++ rest = acc.reverse ++ (head :: rest) := by
        simp [List.reverse_cons]
      rw [this]

/-- A clean segment scans to the appended separator. -/
theorem cleanSeg_charScan (s : Str) (hc : cleanSeg s = true) (r : Str) :
    charScanPos (s ++ ',' :: r) = some s.length := by
  induction s using cleanSeg.induct with
  | case1 =>
    rw [charScanPos.eq_def]
    simp
  | case2 rest =>
    rw [cleanSeg.eq_def] at hc
    simp at hc
  | case3 h0 =>
    rw [cleanSeg.eq_def] at hc
    simp [h0] at hc
  | case4 head rest h0 ih =>
    rw [cleanSeg.eq_def] at hc
    simp only [if_neg h0, if_pos rfl] at hc
    rw [charScanPos.eq_def]
    simp only [List.cons_append, if_neg h0, if_pos rfl]
    rw [show rest ++ ',' :: r = rest ++ ',' :: r from rfl]
    rw [ih hc]
    simp only [Option.map_some', List.length_cons]
    congr 1
  | case5 head rest h0 h1 ih =>
    rw [cleanSeg.eq_def] at hc
    simp only [if_neg h0, if_neg h1] at hc
    rw [charScanPos.eq_def]
    simp only [List.cons_append, if_neg h0, if_neg h1]
    rw [ih hc]
    simp only [Option.map_some', List.length_cons]

/-- Appending `,` and a remainder to a clean segment emits the segment as a
token and scans the remainder afresh. -/
theorem splitTokens_clean_append (s1 : Str) (hc : cleanSeg s1 = true)
    (r : Str) :
    splitTokens (s1 ++ ',' :: r) = trimStr s1 :: splitTokens r := by
  unfold splitTokens
  rw [scanTok_eq, cleanSeg_charScan s1 hc r]
  show trimStr ([] ++ (s1 ++ ',' :: r).take s1.length)
      :: scanTok ((s1 ++ ',' :: r).drop (s1.length + 1)) []
    = trimStr s1 :: scanTok r []
  have h1 : (s1 ++ ',' :: r).take s1.length = s1 := List.take_left _ _
  have h2 : (s1 ++ ',' :: r).drop (s1.length + 1) = r := by
    rw [show s1 ++ ',' :: r = (s1 ++ [',']) ++ r by simp]
    rw [List.drop_left' (by simp)]
  rw [h1, h2]
  simp

/-- `Tokenizer::next` on an ASCII string never panics and matches the
character-level scan. -/
theorem next_ascii (s : Str) (i : Nat) (hA : allAscii s = true)
    (hi : i ≤ s.length) :
    Tokenizer.next ⟨s, i⟩
      = match charScanPos (s.drop i) with
        | some k =>
          some (some (trimStr ((s.drop i).take k)), ⟨s, i + k + 1⟩)
        | none =>
          if i < s.length then
            some (some (trimStr (s.drop i)), ⟨s, s.length⟩)
          else some (none, ⟨s, i⟩) := by
  unfold Tokenizer.next
  rw [show (Tokenizer.mk s i).string = s from rfl,
    show (Tokenizer.mk s i).index = i from rfl]
  rw [scanLoop_eq (s.drop i) i]
  cases hk : charScanPos (s.drop i) with
  | some k =>
    have hklt : k < (s.drop i).length := charScanPos_lt _ _ hk
    rw [List.length_drop] at hklt
    show (sliceBytes s i (i + k)).map _ = _
    rw [sliceBytes_ascii s hA i (i + k) (by omega) (by omega)]
    simp only [Option.map_some', Nat.add_sub_cancel_left]
  | none =>
    show (if i < utf8Len s then _ else _) = _
    rw [utf8Len_ascii s hA]
    by_cases hlt : i < s.length
    · rw [if_pos hlt, if_pos hlt,
        sliceBytes_ascii s hA i s.length (le_of_lt hlt) le_rfl]
      have htake : (s.drop i).take (s.length - i) = s.drop i := by
        conv_lhs => rw [← List.length_drop i s]
        exact List.take_length _
      rw [htake]
      rfl
    · rw [if_neg hlt, if_neg hlt]

/-- The fuelled collection loop on an ASCII string equals the character-level
token sequence of the not-yet-consumed suffix. -/
theorem tokenizeFuel_ascii (fuel : Nat) :
    ∀ (s : Str) (i : Nat), allAscii s = true → i ≤ s.length →
      s.length - i < fuel →
      tokenizeFuel fuel ⟨s, i⟩ = some (scanTok (s.drop i) []) := by
  induction fuel with
  | zero => intro s i _ _ h; omega
  | succ fuel ih =>
    intro s i hA hi hf
    show (match Tokenizer.next ⟨s, i⟩ with
      | none => none
      | some (none, _) => some []
      | some (some tok, t') => (tokenizeFuel fuel t').map (tok :: ·)) = _
    rw [next_ascii s i hA hi]
    cases hk : charScanPos (s.drop i) with
    | some k =>
      have hklt : k < (s.drop i).length := charScanPos_lt _ _ hk
      rw [List.length_drop] at hklt
      show (tokenizeFuel fuel ⟨s, i + k + 1⟩).map _ = _
      rw [ih s (i + k + 1) hA (by omega) (by omega)]
      rw [scanTok_eq (s.drop i) [], hk]
      show some (trimStr ((s.drop i).take k) :: scanTok (s.drop (i + k + 1)) [])
        = some (trimStr ([].reverse ++ (s.drop i).take k)
            :: scanTok ((s.drop i).drop (k + 1)) [])
      rw [List.drop_drop]
      simp only [List.reverse_nil, List.nil_append]
      rw [show i + (k + 1) = i + k + 1 by omega]
    | none =>
      by_cases hlt : i < s.length
      · rw [if_pos hlt]
        show (tokenizeFuel fuel ⟨s, s.length⟩).map _ = _
        rw [ih s s.length hA le_rfl (by omega)]
        rw [scanTok_eq (s.drop i) [], hk]
        have hne : s.drop i ≠ [] := by
          intro h0
          have := congrArg List.length h0
          rw [List.length_drop] at this
          simp at this
          omega
        rw [if_neg (by simpa using hne)]
        rw [List.drop_length]
        rfl
      · rw [if_neg hlt]
        rw [scanTok_eq (s.drop i) [], hk]
        have hdrop : s.drop i = [] := List.drop_eq_nil_of_le (by omega)
        rw [if_pos (by simpa using hdrop)]

/-- On an ASCII string the tokenizer never panics and produces exactly the
character-level token sequence. -/
theorem tokenize_ascii (s : Str) (hA : allAscii s = true) :
    tokenize s = some (splitTokens s) := by
  unfold tokenize
  rw [utf8Len_ascii s hA]
  rw [tokenizeFuel_ascii (s.length + 2) s 0 hA (Nat.zero_le _) (by omega)]
  rw [List.drop_zero]
  rfl

theorem allAscii_append (a b : Str) :
    allAscii (a ++ b) = (allAscii a && allAscii b) := by
  simp [allAscii, List.all_append]

theorem allAscii_cons (c : Char) (a : Str) :
    allAscii (c :: a) = ((c.utf8Size == 1) && allAscii a) := by
  simp [allAscii]

/-- C9 counterexample: the claim quantifies over every input string, but on
`"é,,1"` — which does contain consecutive unescaped separators — the
tokenizer panics before yielding anything, so no output sequence exists. -/
theorem consecutive_separators_panic_on_multibyte :
    tokenize "é,,1".data = none := by
  decide

/-- C9 (amended): on ASCII input the tokenizer never panics; consecutive
unescaped separators yield an empty token preserved in the output, a single
trailing unescaped separator yields no trailing empty token, and the two
dictated examples hold. -/
theorem tokenizer_separator_behaviour
    (s1 s2 : Str) (h1 : allAscii s1 = true) (h2 : allAscii s2 = true)
    (hc : cleanSeg s1 = true) :
    tokenize "1,,2,3".data = some ["1".data, [], "2".data, "3".data] ∧
    tokenize "1,2,".data = some ["1".data, "2".data] ∧
    tokenize (s1 ++ ',' :: ',' :: s2)
      = some (trimStr s1 :: [] :: splitTokens s2) ∧
    tokenize (s1 ++ [',']) = some [trimStr s1] ∧
    tokenize s2 = some (splitTokens s2) := by
  have hcomma : (',' : Char).utf8Size == 1 := by decide
  refine ⟨by decide, by decide, ?_, ?_, tokenize_ascii s2 h2⟩
  · have hA3 : allAscii (s1 ++ ',' :: ',' :: s2) = true := by
      rw [allAscii_append, allAscii_cons, allAscii_cons, h1, h2, hcomma]
      rfl
    rw [tokenize_ascii _ hA3]
    rw [splitTokens_clean_append s1 hc (',' :: s2)]
    rw [show (',' :: s2) = [] ++ ',' :: s2 from rfl,
      splitTokens_clean_append [] rfl s2]
    rfl
  · have hA4 : allAscii (s1 ++ [',']) = true := by
      rw [allAscii_append, allAscii_cons, h1, hcomma]
      rfl
    rw [tokenize_ascii _ hA4]
    rw [splitTokens_clean_append s1 hc []]
    rfl

/-- Witness for the amended C9 theorem at `s1 = "a"`, `s2 = "b"`. -/
theorem tokenizer_separator_behaviour_witness :
    tokenize ("a".data ++ ',' :: ',' :: "b".data)
      = some (trimStr "a".data :: [] :: splitTokens "b".data) ∧
    tokenize ("a".data ++ [','])
      = some [trimStr "a".data] := by
  have h := tokenizer_separator_behaviour "a".data "b".data
    (by decide) (by decide) (by decide)
  exact ⟨h.2.2.1, h.2.2.2.1⟩

/-- Witness for the amended C5 theorem at `v1 = "1"`, `v2 = "2"`. -/
theorem get_vec_plain_split_behaviour_witness :
    Ini.get_vec (fun s => some s)
        ((Ini.new.section' ("s".data)).item "k".data ("1".data ++ '\\' :: ',' :: "2".data))
        "s".data "k".data
      = some (trimStr ("1".data ++ ['\\'])
          :: (splitChar ',' "2".data).map trimStr) := by
  exact get_vec_plain_split_behaviour "1".data "2".data "s".data "k".data
    (by decide)

/-- C1: REFUTATION of the claimed insert behaviour.  Inserting key `"a"`
into a store already containing `"a"` does return the previous value, but it
also appends a duplicate `"a"` to the order sequence, so after N = 1 distinct
insertion and M = 1 update the iteration visits two pairs, not one. -/
theorem insert_existing_key_duplicates_order :
    (((OrderedHashMap.new.insert "a".data (1 : Nat)).2.insert "a".data 2).1
      = some 1) ∧
    ((OrderedHashMap.new.insert "a".data (1 : Nat)).2.insert "a".data 2).2.order
      = ["a".data, "a".data] ∧
    ((OrderedHashMap.new.insert "a".data (1 : Nat)).2.insert "a".data 2).2.iter
      = [("a".data, 2), ("a".data, 2)] ∧
    ((OrderedHashMap.new.insert "a".data (1 : Nat)).2.insert "a".data 2).2.order
      ≠ ["a".data] := by
  decide

/-- C2: REFUTATION of the claimed entry behaviour.  Calling `entry` for the
already-present key `"a"` pushes a duplicate `"a"` onto the order sequence
instead of leaving it untouched. -/
theorem entry_existing_key_duplicates_order :
    ((OrderedHashMap.new.insert "a".data (1 : Nat)).2.entry "a".data).order
      = ["a".data, "a".data] ∧
    ((OrderedHashMap.new.insert "a".data (1 : Nat)).2.entry "a".data).order
      ≠ (OrderedHashMap.new.insert "a".data (1 : Nat)).2.order := by
  decide

/-- C3: REFUTATION of the round-trip claim.  The builder document
`Ini::new().section("s").item("a","1").item("b","2")` already carries the
section name twice in its order sequence (each `item` call pushes it), so
serialization emits the `[s]` block twice and re-parsing yields a document
with a four-entry section order — iteration orders do not match. -/
theorem roundtrip_duplicates_section_order :
    Ini.to_buffer exDoc
      = "[s]\na = 1\nb = 2\n\n[s]\na = 1\nb = 2".data ∧
    exDoc.data.order = ["s".data, "s".data] ∧
    (Ini.from_string (Ini.to_buffer exDoc)).data.order
      = ["s".data, "s".data, "s".data, "s".data] ∧
    (Ini.from_string (Ini.to_buffer exDoc)).data.order ≠ exDoc.data.order := by
  decide

/-- C4 counterexample: the line `"[a = 1"` has content containing `=` with
nonempty trimmed key `"[a"`, yet the parser classifies it as a malformed
section header, and after assembly the key is found nowhere. -/
theorem entry_line_starting_with_bracket_not_parsed :
    parse_line "[a = 1".data = .Error "incorrect section syntax".data ∧
    (Ini.from_string "[a = 1".data).get_raw [] "[a".data = none ∧
    (Ini.from_string "[a = 1".data).data.base = [] := by
  decide

/-- C5 counterexample: `get_vec` splits the stored value `1\,2` at the
escaped separator with the backslash left at the end of the first token,
whereas the escape-aware tokenizer of `tokenizer.rs` would keep it whole. -/
theorem get_vec_splits_at_escaped_separator :
    Ini.get_vec (fun s => some s) exDocEsc "s".data "k".data
      = some ["1\\".data, "2".data] ∧
    tokenize "1\\,2".data = some ["1\\,2".data] ∧
    Ini.get_vec (fun s => some s) exDocEsc "s".data "k".data
      ≠ some ["1\\,2".data] := by
  decide

/-- C7 counterexample: parsing the single header line `"[empty]"` yields a
document in which the section `"empty"` does NOT exist (the header only set
the cursor), and which serializes to nothing. -/
theorem empty_section_header_creates_no_section :
    parse_line "[empty]".data = .Section "empty".data ∧
    (Ini.from_string "[empty]".data).data.get "empty".data = none ∧
    (Ini.from_string "[empty]".data).data.base = [] ∧
    Ini.to_buffer (Ini.from_string "[empty]".data) = [] := by
  decide

/-- C10: REFUTATION of tokenizer safety.  On the input `"é,1"` the scanning
loop counts characters while the slice takes byte indices, so the first
`next` call slices `"é,1"[0..1]` — inside the two-byte character `é` — and
panics (modelled as `none`); the same string without a separator tokenizes
fine. -/
theorem tokenizer_panics_on_multibyte_input :
    tokenize "é,1".data = none ∧
    tokenize "é1".data = some ["é1".data] := by
  decide

end Tini
